import Mathlib

/-!
Verification of the factor-computation and weight-construction pipeline:
time-series factor math (momentum, value ratios), cross-sectional
normalisation, idempotent factor storage, and target-weight construction.

Conventions of the shallow embedding:
* A pandas/numpy floating value that may be `NaN` is modelled as `Option ℚ`
  (`none` = NaN / missing); arithmetic on defined values is exact `ℚ`
  (`isfinite` is identically true, so finiteness guards in the source
  become trivially-true conjuncts).
* A DataFrame column is a `List`; per-security frames are lists ordered by
  `trade_date`; dates and security ids are `ℤ`.
* Raised exceptions are modelled with `Except String`.
-/

namespace Spec2Proof

/-! ### Momentum: `_momentum_from_prices` (src/factors/momentum/momentum.py)

numpy source, for an array `arr` of length `n`:
```
out = np.full_like(arr, np.nan)
if n > lookback + skip:
    num = arr[lookback : n - skip]
    den = arr[: n - lookback - skip]
    valid = (den != 0) & isfinite(den) & isfinite(num)
    tmp = np.full(n - (lookback + skip), np.nan); tmp[valid] = num[valid]/den[valid] - 1
    out[lookback + skip :] = tmp
```
-/

/-- Embedding of `_momentum_from_prices`: one `Option ℚ` per input position,
`none` where numpy leaves NaN. -/
def momentumFromPrices (arr : List ℚ) (lookback skip : ℕ) : List (Option ℚ) :=
  let n := arr.length
  if lookback + skip < n then
    let num := (arr.drop lookback).take (n - skip - lookback)
    let den := arr.take (n - lookback - skip)
    let tmp := List.zipWith (fun a b => if b ≠ 0 then some (a / b - 1) else none) num den
    List.replicate (lookback + skip) none ++ tmp
  else
    List.replicate n none

theorem momentumFromPrices_length (arr : List ℚ) (L S : ℕ) :
    (momentumFromPrices arr L S).length = arr.length := by
  unfold momentumFromPrices
  by_cases h : L + S < arr.length
  · simp only [if_pos h, List.length_append, List.length_replicate, List.length_zipWith,
      List.length_take, List.length_drop]
    omega
  · simp [if_neg h]

theorem momentumFromPrices_getD (arr : List ℚ) (L S : ℕ) (t : ℕ) (ht : t < arr.length) :
    (momentumFromPrices arr L S).getD t none =
      if L + S ≤ t ∧ arr.getD (t - S - L) 0 ≠ 0
      then some (arr.getD (t - S) 0 / arr.getD (t - S - L) 0 - 1)
      else none := by
  rw [List.getD_eq_getElem?_getD]
  unfold momentumFromPrices
  by_cases hn : L + S < arr.length
  · simp only [if_pos hn]
    by_cases hts : L + S ≤ t
    · have harr : ∀ i : ℕ, i < arr.length → arr[i]? = some (arr.getD i 0) := by
        intro i hi
        rw [List.getElem?_eq_getElem hi, List.getD_eq_getElem?_getD,
          List.getElem?_eq_getElem hi, Option.getD_some]
      rw [List.getElem?_append]
      rw [if_neg (by simp only [List.length_replicate]; omega)]
      simp only [List.length_replicate, List.getElem?_zipWith', List.getElem?_take,
        List.getElem?_drop]
      have h1 : L + (t - (L + S)) = t - S := by omega
      have h2 : t - (L + S) = t - S - L := by omega
      rw [h1, h2, harr (t - S) (by omega), harr (t - S - L) (by omega)]
      rw [if_pos (show t - S - L < arr.length - S - L by omega)]
      rw [if_pos (show t - S - L < arr.length - L - S by omega)]
      by_cases hz : arr.getD (t - S - L) 0 = 0
      · simp [hz, hts]
      · simp [hz, hts]
    · rw [List.getElem?_append]
      rw [if_pos (by simp only [List.length_replicate]; omega)]
      simp only [List.getElem?_replicate]
      rw [if_pos (by omega)]
      simp [hts]
  · simp only [if_neg hn]
    have h3 : ¬ (L + S ≤ t) := by omega
    simp [List.getElem?_replicate, ht, h3]

/-- C2: for a per-security price series (ascending by date) with lookback `L > 0`
and skip `S ≥ 0` in trading periods, the momentum array has the same length as
the price array, and position `t` holds a defined value iff `t ≥ L + S` and the
denominator price is nonzero (finiteness is trivial over `ℚ`); the defined value
is exactly `price[t-S] / price[t-S-L] - 1`, and every other position is `none`
(absent — `compute_momentum` later drops those rows — never encoded as zero). -/
theorem C2_momentum_defined_iff (arr : List ℚ) (L S : ℕ) (hL : 0 < L)
    (t : ℕ) (ht : t < arr.length) :
    (momentumFromPrices arr L S).length = arr.length ∧
    (momentumFromPrices arr L S).getD t none =
      (if L + S ≤ t ∧ arr.getD (t - S - L) 0 ≠ 0
       then some (arr.getD (t - S) 0 / arr.getD (t - S - L) 0 - 1)
       else none) :=
  ⟨momentumFromPrices_length arr L S, momentumFromPrices_getD arr L S t ht⟩

/-- Witness for C2 at the spec's concrete scenario (prices 100, 110, 121,
lookback 1, skip 0): position 2 holds `121/110 - 1 = 1/10`. -/
theorem C2_momentum_defined_iff_witness :
    (0 < 1 ∧ 2 < ([100, 110, 121] : List ℚ).length) ∧
    (momentumFromPrices [100, 110, 121] 1 0).getD 2 none =
      some (([100, 110, 121] : List ℚ).getD 2 0 / ([100, 110, 121] : List ℚ).getD 1 0 - 1) := by
  refine ⟨⟨by decide, by decide⟩, ?_⟩
  have h := (C2_momentum_defined_iff [100, 110, 121] 1 0 (by decide) 2 (by decide)).2
  rw [h, if_pos (by decide : 1 + 0 ≤ 2 ∧ ¬ (([100, 110, 121] : List ℚ).getD (2 - 0 - 1) 0 = 0))]

/-! ### As-of join of prices and fundamentals (src/utils/factor_data.py)

`merge_prices_and_fundamentals` runs, per security, a backward
`pd.merge_asof` of the daily price rows (keyed by `trade_date`) against the
wide fundamentals rows (keyed by `period_end`, exact matches allowed);
`load_prices_with_fundamentals` then forward-fills the fundamental columns
within each security.  A fundamentals row carries `Option ℚ` metric cells,
because the wide pivot can leave a metric missing for a given period. -/

/-- Backward `merge_asof` match for one trade date: the last fundamentals row
(in list order; for a list ascending in `period_end`, the most recent one)
with `period_end ≤ d`, or `none` when no row qualifies. -/
def asofMatch (fund : List (ℤ × Option ℚ)) (d : ℤ) : Option (ℤ × Option ℚ) :=
  fund.foldl (fun acc r => if r.1 ≤ d then some r else acc) none

/-- Fundamental-metric column produced by the as-of merge, one cell per trade
date. -/
def mergedFundCol (dates : List ℤ) (fund : List (ℤ × Option ℚ)) : List (Option ℚ) :=
  dates.map (fun d => (asofMatch fund d).bind Prod.snd)

/-- One step of pandas `ffill`: keep a defined cell, else carry the last seen
value. -/
def carryStep (acc x : Option ℚ) : Option ℚ :=
  match x with
  | some v => some v
  | none => acc

/-- Pandas `groupby(security_id).ffill()` on one column of one security. -/
def ffillCol (last : Option ℚ) : List (Option ℚ) → List (Option ℚ)
  | [] => []
  | x :: xs => carryStep last x :: ffillCol (carryStep last x) xs

/-- Fundamental column as `load_prices_with_fundamentals` returns it for one
security: as-of merged, then forward-filled. -/
def joinedFundCol (dates : List ℤ) (fund : List (ℤ × Option ℚ)) : List (Option ℚ) :=
  ffillCol none (mergedFundCol dates fund)

theorem asofMatch_append_single (fund : List (ℤ × Option ℚ)) (r : ℤ × Option ℚ) (d : ℤ) :
    asofMatch (fund ++ [r]) d = if r.1 ≤ d then some r else asofMatch fund d := by
  unfold asofMatch
  rw [List.foldl_append]
  simp

theorem asofMatch_mem_le (fund : List (ℤ × Option ℚ)) (d : ℤ) (r : ℤ × Option ℚ)
    (h : asofMatch fund d = some r) : r ∈ fund ∧ r.1 ≤ d := by
  induction fund using List.reverseRecOn with
  | nil => simp [asofMatch] at h
  | append_singleton fund x ih =>
      rw [asofMatch_append_single] at h
      by_cases hx : x.1 ≤ d
      · rw [if_pos hx, Option.some_inj] at h
        rw [← h]
        exact ⟨List.mem_append_right _ (List.mem_singleton_self x), hx⟩
      · rw [if_neg hx] at h
        obtain ⟨h1, h2⟩ := ih h
        exact ⟨List.mem_append_left _ h1, h2⟩

theorem asofMatch_maximal (fund : List (ℤ × Option ℚ)) (d : ℤ)
    (hs : fund.Pairwise (fun a b => a.1 ≤ b.1)) (r : ℤ × Option ℚ)
    (h : asofMatch fund d = some r) :
    ∀ q ∈ fund, q.1 ≤ d → q.1 ≤ r.1 := by
  induction fund using List.reverseRecOn with
  | nil => simp [asofMatch] at h
  | append_singleton fund x ih =>
      have hall : ∀ q ∈ fund, q.1 ≤ x.1 := by
        intro q hq
        exact (List.pairwise_append.mp hs).2.2 q hq x (List.mem_singleton_self x)
      have hs0 : fund.Pairwise (fun a b => a.1 ≤ b.1) := (List.pairwise_append.mp hs).1
      rw [asofMatch_append_single] at h
      intro q hq hqd
      by_cases hx : x.1 ≤ d
      · rw [if_pos hx, Option.some_inj] at h
        rw [← h]
        rcases List.mem_append.mp hq with hq1 | hq2
        · exact hall q hq1
        · rw [List.mem_singleton.mp hq2]
      · rw [if_neg hx] at h
        rcases List.mem_append.mp hq with hq1 | hq2
        · exact ih hs0 h q hq1 hqd
        · rw [List.mem_singleton.mp hq2] at hqd
          omega

theorem asofMatch_isSome (fund : List (ℤ × Option ℚ)) (d : ℤ)
    (h : ∃ q ∈ fund, q.1 ≤ d) : (asofMatch fund d).isSome := by
  induction fund using List.reverseRecOn with
  | nil => simp at h
  | append_singleton fund x ih =>
      rw [asofMatch_append_single]
      by_cases hx : x.1 ≤ d
      · simp [hx]
      · rw [if_neg hx]
        apply ih
        obtain ⟨q, hq, hqd⟩ := h
        rcases List.mem_append.mp hq with hq1 | hq2
        · exact ⟨q, hq1, hqd⟩
        · rw [List.mem_singleton.mp hq2] at hqd
          omega

theorem asofMatch_congr (fund : List (ℤ × Option ℚ)) (d e : ℤ)
    (h : ∀ q ∈ fund, (q.1 ≤ d) ↔ (q.1 ≤ e)) :
    asofMatch fund d = asofMatch fund e := by
  induction fund using List.reverseRecOn with
  | nil => rfl
  | append_singleton fund x ih =>
      rw [asofMatch_append_single, asofMatch_append_single]
      have hx := h x (List.mem_append_right _ (List.mem_singleton_self x))
      have hrec := ih (fun q hq => h q (List.mem_append_left _ hq))
      by_cases hxd : x.1 ≤ d
      · rw [if_pos hxd, if_pos (hx.mp hxd)]
      · rw [if_neg hxd, if_neg (fun he => hxd (hx.mpr he)), hrec]

theorem ffillCol_length (last : Option ℚ) (l : List (Option ℚ)) :
    (ffillCol last l).length = l.length := by
  induction l generalizing last with
  | nil => rfl
  | cons x xs ih => simp [ffillCol, ih]

theorem ffillCol_getD (last : Option ℚ) (l : List (Option ℚ)) (i : ℕ) (hi : i < l.length) :
    (ffillCol last l).getD i none = (l.take (i + 1)).foldl carryStep last := by
  induction l generalizing last i with
  | nil => simp at hi
  | cons x xs ih =>
      cases i with
      | zero => simp [ffillCol, List.take, List.getD_cons_zero]
      | succ j =>
          simp only [ffillCol, List.getD_cons_succ, List.take_succ_cons, List.foldl_cons]
          exact ih (carryStep last x) j (by simpa using hi)

theorem foldl_carryStep_some (last : Option ℚ) (l : List (Option ℚ)) (v : ℚ)
    (h : l.foldl carryStep last = some v) :
    last = some v ∨ some v ∈ l := by
  induction l generalizing last with
  | nil => left; simpa using h
  | cons x xs ih =>
      rcases ih (carryStep last x) (by simpa using h) with h1 | h2
      · cases x with
        | none => left; simpa [carryStep] using h1
        | some w =>
            right
            simp [carryStep] at h1
            simp [h1]
      · right; simp [h2]

theorem foldl_carryStep_all_none (acc : Option ℚ) (l : List (Option ℚ))
    (h : ∀ x ∈ l, x = none) : l.foldl carryStep acc = acc := by
  induction l generalizing acc with
  | nil => rfl
  | cons x xs ih =>
      have hx : x = none := h x (List.mem_cons_self x xs)
      rw [List.foldl_cons, hx]
      exact ih acc (fun y hy => h y (List.mem_cons_of_mem x hy))

theorem getD_option_eq (l : List (Option ℚ)) (k : ℕ) (hk : k < l.length) :
    l[k]? = some (l.getD k none) := by
  rw [List.getElem?_eq_getElem hk, List.getD_eq_getElem?_getD, List.getElem?_eq_getElem hk,
    Option.getD_some]

theorem mergedFundCol_getD (dates : List ℤ) (fund : List (ℤ × Option ℚ)) (k : ℕ)
    (hk : k < dates.length) :
    (mergedFundCol dates fund).getD k none = (asofMatch fund (dates.getD k 0)).bind Prod.snd := by
  rw [List.getD_eq_getElem?_getD, mergedFundCol, List.getElem?_map,
    List.getElem?_eq_getElem hk]
  rw [List.getD_eq_getElem?_getD, List.getElem?_eq_getElem hk]
  rfl

/-- C1: for every security and trade date `D` (given fundamentals ascending by
`period_end` and trade dates ascending, as both loaders enforce):
(1) every defined value of the joined, forward-filled fundamental column on
date `D` originates from a fundamentals row with `period_end ≤ D`, so no
future disclosure ever leaks backward; (2) the as-of match on `D` is a
fundamentals row with the greatest `period_end` among rows with
`period_end ≤ D` — the most recent disclosure; (3) between two trade dates
with no disclosure in between, the joined column is held constant
(forward-filled) at the prior value. -/
theorem C1_asof_join_no_lookahead (dates : List ℤ) (fund : List (ℤ × Option ℚ))
    (hd : dates.Pairwise (· ≤ ·))
    (hf : fund.Pairwise (fun a b => a.1 ≤ b.1)) :
    (∀ i, i < dates.length → ∀ v : ℚ,
      (joinedFundCol dates fund).getD i none = some v →
      ∃ pe : ℤ, (pe, some v) ∈ fund ∧ pe ≤ dates.getD i 0) ∧
    (∀ i, i < dates.length → ∀ r : ℤ × Option ℚ,
      asofMatch fund (dates.getD i 0) = some r →
      r ∈ fund ∧ r.1 ≤ dates.getD i 0 ∧
        ∀ q ∈ fund, q.1 ≤ dates.getD i 0 → q.1 ≤ r.1) ∧
    (∀ i j, i ≤ j → j < dates.length →
      (∀ q ∈ fund, ¬ (dates.getD i 0 < q.1 ∧ q.1 ≤ dates.getD j 0)) →
      (joinedFundCol dates fund).getD j none = (joinedFundCol dates fund).getD i none) := by
  have hlen : (mergedFundCol dates fund).length = dates.length := by
    simp [mergedFundCol]
  have hdmono : ∀ a b : ℕ, a ≤ b → b < dates.length →
      dates.getD a 0 ≤ dates.getD b 0 := by
    intro a b hab hb
    rcases eq_or_lt_of_le hab with rfl | hlt
    · exact le_refl _
    · have hgot := List.pairwise_iff_getElem.mp hd a b (by omega) hb hlt
      rw [List.getD_eq_getElem?_getD, List.getD_eq_getElem?_getD,
        List.getElem?_eq_getElem (show a < dates.length by omega),
        List.getElem?_eq_getElem hb]
      simpa using hgot
  refine ⟨?_, ?_, ?_⟩
  · -- (1) no look-ahead
    intro i hi v hv
    rw [joinedFundCol, ffillCol_getD none _ i (by rw [hlen]; exact hi)] at hv
    rcases foldl_carryStep_some _ _ _ hv with h0 | hmem
    · exact absurd h0 (by simp)
    obtain ⟨k, hk, hkv⟩ := List.mem_iff_getElem.mp hmem
    have hk1 : k < i + 1 := lt_of_lt_of_le hk (by simp)
    have hk2 : k < dates.length := by omega
    rw [List.getElem_take] at hkv
    have hkd : (mergedFundCol dates fund).getD k none = some v := by
      rw [List.getD_eq_getElem?_getD, List.getElem?_eq_getElem (by rw [hlen]; exact hk2), hkv]
      rfl
    rw [mergedFundCol_getD dates fund k hk2] at hkd
    obtain ⟨r, hr, hr2⟩ := Option.bind_eq_some.mp hkd
    obtain ⟨hrmem, hrle⟩ := asofMatch_mem_le fund _ r hr
    refine ⟨r.1, ?_, ?_⟩
    · have hrr : r = (r.1, some v) := by
        obtain ⟨a, b⟩ := r
        simp only at hr2
        rw [hr2]
      rw [← hrr]
      exact hrmem
    · exact le_trans hrle (hdmono k i (by omega) hi)
  · -- (2) most recent disclosure
    intro i hi r hr
    obtain ⟨h1, h2⟩ := asofMatch_mem_le fund _ r hr
    exact ⟨h1, h2, asofMatch_maximal fund _ hf r hr⟩
  · -- (3) held constant until the next disclosure
    intro i j hij hj hquiet
    rcases eq_or_lt_of_le hij with rfl | hlt
    · rfl
    have hi : i < dates.length := by omega
    have hconst : ∀ k, i ≤ k → k ≤ j →
        asofMatch fund (dates.getD k 0) = asofMatch fund (dates.getD i 0) := by
      intro k h1 h2
      apply asofMatch_congr
      intro q hq
      constructor
      · intro hqk
        by_contra hqi
        exact hquiet q hq ⟨by omega, le_trans hqk (hdmono k j h2 hj)⟩
      · intro hqi
        exact le_trans hqi (hdmono i k h1 (by omega))
    have hmk : ∀ k, i ≤ k → k ≤ j →
        (mergedFundCol dates fund).getD k none =
          (asofMatch fund (dates.getD i 0)).bind Prod.snd := by
      intro k h1 h2
      rw [mergedFundCol_getD dates fund k (by omega), hconst k h1 h2]
    rw [joinedFundCol, ffillCol_getD none _ j (by rw [hlen]; exact hj),
      ffillCol_getD none _ i (by rw [hlen]; exact hi)]
    cases hc : (asofMatch fund (dates.getD i 0)).bind Prod.snd with
    | some v =>
        have hlast : ∀ k, i ≤ k → k ≤ j →
            ((mergedFundCol dates fund).take (k + 1)).foldl carryStep none = some v := by
          intro k h1 h2
          have hk : k < dates.length := by omega
          have htk : (mergedFundCol dates fund).take (k + 1) =
              (mergedFundCol dates fund).take k ++ [some v] := by
            rw [List.take_succ, getD_option_eq _ k (by rw [hlen]; exact hk),
              hmk k h1 h2, hc]
            rfl
          rw [htk, List.foldl_append]
          rfl
        rw [hlast j hij (le_refl j), hlast i (le_refl i) hij]
    | none =>
        have hsplit : (mergedFundCol dates fund).take (j + 1) =
            (mergedFundCol dates fund).take (i + 1) ++
              (((mergedFundCol dates fund).drop (i + 1)).take (j - i)) := by
          rw [← List.take_add]
          congr 1
          omega
        rw [hsplit, List.foldl_append]
        apply foldl_carryStep_all_none
        intro x hx
        obtain ⟨m, hm, hxm⟩ := List.mem_iff_getElem.mp hx
        have hmlen : i + 1 + m ≤ j := by
          have := hm
          simp only [List.length_take, List.length_drop, hlen] at this
          omega
        have hdl : i + 1 + m < dates.length := by omega
        rw [List.getElem_take, List.getElem_drop] at hxm
        have hxd : (mergedFundCol dates fund).getD (i + 1 + m) none = x := by
          rw [List.getD_eq_getElem?_getD,
            List.getElem?_eq_getElem (by rw [hlen]; exact hdl), hxm]
          rfl
        rw [hmk (i + 1 + m) (by omega) hmlen, hc] at hxd
        exact hxd.symm

/-- Witness for C1: dates 10, 20, 30 and disclosures (5 ↦ 7), (25 ↦ 9); the
joined value on date 20 is 7, and it originates from `period_end` 5 ≤ 20. -/
theorem C1_asof_join_no_lookahead_witness :
    (joinedFundCol [10, 20, 30] [(5, some 7), (25, some 9)]).getD 1 none = some 7 ∧
    (∃ pe : ℤ, (pe, some (7 : ℚ)) ∈ [((5 : ℤ), some (7 : ℚ)), (25, some 9)] ∧
      pe ≤ ([10, 20, 30] : List ℤ).getD 1 0) := by
  refine ⟨by decide, ?_⟩
  exact (C1_asof_join_no_lookahead [10, 20, 30] [(5, some 7), (25, some 9)]
    (by decide) (by decide)).1 1 (by decide) 7 (by decide)

/-! ### Weight builder: `FactorBacktester` (src/backtest/engine.py)

A cross-section for one date is a `List (Option ℚ)` of factor scores, one
slot per security column; `none` models a NaN score.  `rank(axis=1,
ascending=False)` is pandas' default `method='average'`: a defined score `v`
gets rank `#(w > v) + (#(w = v) + 1)/2`, a NaN score gets a NaN rank and
compares `False` against `top_n`.  `_calculate_weights` with `'equal'`
weighting divides the boolean entry row by its row sum and then applies
`fillna(0.0)` (so an all-empty row, whose division is 0/0 = NaN, becomes 0 —
matching `ℚ`'s 0-division convention). -/

/-- Count of defined scores strictly greater than `v`. -/
def countGT (scores : List (Option ℚ)) (v : ℚ) : ℕ :=
  scores.countP (fun o => match o with | some w => decide (v < w) | none => false)

/-- Count of defined scores strictly less than `v`. -/
def countLT (scores : List (Option ℚ)) (v : ℚ) : ℕ :=
  scores.countP (fun o => match o with | some w => decide (w < v) | none => false)

/-- Count of defined scores equal to `v`. -/
def countEQ (scores : List (Option ℚ)) (v : ℚ) : ℕ :=
  scores.countP (fun o => decide (o = some v))

/-- Count of defined (non-NaN) scores in the cross-section. -/
def definedCount (scores : List (Option ℚ)) : ℕ :=
  scores.countP (fun o => o.isSome)

/-- Pandas `rank(axis=1, ascending=False)` (method `'average'`) at column `i`. -/
def rankDesc (scores : List (Option ℚ)) (i : ℕ) : Option ℚ :=
  (scores.getD i none).map
    (fun v => (countGT scores v : ℚ) + ((countEQ scores v : ℚ) + 1) / 2)

/-- Pandas `rank(axis=1, ascending=True)` (method `'average'`) at column `i`. -/
def rankAsc (scores : List (Option ℚ)) (i : ℕ) : Option ℚ :=
  (scores.getD i none).map
    (fun v => (countLT scores v : ℚ) + ((countEQ scores v : ℚ) + 1) / 2)

/-- Entry test `ranks <= top_n` of `run_top_n_strategy` (NaN ranks compare
`False`); also the long side of `run_long_short_strategy`. -/
def topNEntry (scores : List (Option ℚ)) (N i : ℕ) : Bool :=
  match rankDesc scores i with
  | some r => decide (r ≤ (N : ℚ))
  | none => false

/-- Short-side entry test `ranks_asc <= top_n` of `run_long_short_strategy`. -/
def lsShortEntry (scores : List (Option ℚ)) (N i : ℕ) : Bool :=
  match rankAsc scores i with
  | some r => decide (r ≤ (N : ℚ))
  | none => false

/-- Boolean entry row for one date. -/
def topNEntries (scores : List (Option ℚ)) (N : ℕ) : List Bool :=
  (List.range scores.length).map (fun i => topNEntry scores N i)

/-- `_calculate_weights(entries, 'equal')` + `fillna(0.0)` on one row:
`e_i / Σe` with `0 / 0 = 0`. -/
def equalWeights (entries : List Bool) : List ℚ :=
  entries.map (fun e => (if e then 1 else 0) / (entries.countP id : ℚ))

/-- Target weights of `run_top_n_strategy` for one date (equal weighting). -/
def topNWeights (scores : List (Option ℚ)) (N : ℕ) : List ℚ :=
  equalWeights (topNEntries scores N)

theorem sum_div_map (l : List Bool) (c : ℚ) :
    (l.map (fun e => (if e then (1 : ℚ) else 0) / c)).sum = (l.countP id : ℚ) / c := by
  induction l with
  | nil => simp
  | cons x xs ih =>
      cases x with
      | true =>
          simp only [List.map_cons, List.sum_cons, List.countP_cons, ih]
          simp [add_div]
          ring
      | false =>
          simp only [List.map_cons, List.sum_cons, List.countP_cons, ih]
          simp

theorem countP_add_countP_le (l : List (Option ℚ)) (p q r : Option ℚ → Bool)
    (h : ∀ o, (if p o then 1 else 0) + (if q o then 1 else 0) ≤ (if r o then (1 : ℕ) else 0)) :
    l.countP p + l.countP q ≤ l.countP r := by
  induction l with
  | nil => simp
  | cons x xs ih =>
      simp only [List.countP_cons]
      have := h x
      omega

theorem countP_three_eq (l : List (Option ℚ)) (p q s r : Option ℚ → Bool)
    (h : ∀ o, (if p o then 1 else 0) + (if q o then 1 else 0) + (if s o then 1 else 0)
          = (if r o then (1 : ℕ) else 0)) :
    l.countP p + l.countP q + l.countP s = l.countP r := by
  induction l with
  | nil => simp
  | cons x xs ih =>
      simp only [List.countP_cons]
      have := h x
      omega

theorem countGT_add_countEQ_le (scores : List (Option ℚ)) (v : ℚ) :
    countGT scores v + countEQ scores v ≤ definedCount scores := by
  apply countP_add_countP_le
  intro o
  cases o with
  | none => simp
  | some w =>
      by_cases hgt : v < w
      · have hne : (some w = some v) = False := by
          simp only [Option.some_inj, eq_iff_iff, iff_false]
          intro hh
          rw [hh] at hgt
          exact lt_irrefl v hgt
        simp [hgt, hne]
      · simp [hgt]
        split <;> omega

theorem countLT_three (scores : List (Option ℚ)) (v : ℚ) :
    countLT scores v + countGT scores v + countEQ scores v = definedCount scores := by
  apply countP_three_eq
  intro o
  cases o with
  | none => simp
  | some w =>
      rcases lt_trichotomy w v with h | h | h
      · have h2 : ¬ v < w := lt_asymm h
        have h3 : some w ≠ some v := by
          simp only [ne_eq, Option.some_inj]
          exact ne_of_lt h
        simp [h, h2, h3]
      · subst h
        simp [lt_irrefl]
      · have h2 : ¬ w < v := lt_asymm h
        have h3 : some w ≠ some v := by
          simp only [ne_eq, Option.some_inj]
          exact ne_of_gt h
        simp [h, h2, h3]

theorem topNEntries_length (scores : List (Option ℚ)) (N : ℕ) :
    (topNEntries scores N).length = scores.length := by
  simp [topNEntries]

theorem topNEntries_getD (scores : List (Option ℚ)) (N i : ℕ) (hi : i < scores.length) :
    (topNEntries scores N).getD i false = topNEntry scores N i := by
  rw [topNEntries, List.getD_eq_getElem?_getD, List.getElem?_map, List.getElem?_range hi]
  rfl

theorem getD_bool_true_mem (l : List Bool) (i : ℕ) (h : l.getD i false = true) :
    true ∈ l := by
  rw [List.getD_eq_getElem?_getD] at h
  cases hl : l[i]? with
  | none => rw [hl] at h; simp at h
  | some b =>
      rw [hl] at h
      simp only [Option.getD_some] at h
      rw [h] at hl
      exact List.getElem?_mem hl

/-- C3: in a top-N equal-weight long-only cross-section, (a) the weights sum
to exactly 1 whenever at least one column is selected by the rank rule;
(b) the weights sum to 0 when no column is selected; (c) N is a ceiling —
on a date with at least one but no more than N defined scores, every defined
column is selected (so the weights again sum to 1 by (a)); (d) an unselected
column always has weight 0. -/
theorem C3_topN_weight_sums (scores : List (Option ℚ)) (N : ℕ) :
    ((∃ i, (topNEntries scores N).getD i false = true) → (topNWeights scores N).sum = 1) ∧
    ((∀ i, (topNEntries scores N).getD i false = false) → (topNWeights scores N).sum = 0) ∧
    (1 ≤ definedCount scores → definedCount scores ≤ N →
      ∀ i, i < scores.length → (scores.getD i none).isSome = true →
        topNEntry scores N i = true) ∧
    (∀ i, topNEntry scores N i = false → (topNWeights scores N).getD i 0 = 0) := by
  refine ⟨?_, ?_, ?_, ?_⟩
  · rintro ⟨i, hi⟩
    have hmem : true ∈ topNEntries scores N := getD_bool_true_mem _ i hi
    have hc : 0 < (topNEntries scores N).countP id :=
      List.countP_pos_iff.mpr ⟨true, hmem, rfl⟩
    rw [topNWeights, equalWeights, sum_div_map]
    exact div_self (Nat.cast_ne_zero.mpr (Nat.pos_iff_ne_zero.mp hc))
  · intro h
    apply List.sum_eq_zero
    intro w hw
    rw [topNWeights, equalWeights] at hw
    obtain ⟨e, he, hew⟩ := List.mem_map.mp hw
    obtain ⟨k, hk, hke⟩ := List.mem_iff_getElem.mp he
    have he_false : e = false := by
      have hgd := h k
      rw [List.getD_eq_getElem?_getD, List.getElem?_eq_getElem hk, hke] at hgd
      simpa using hgd
    rw [he_false] at hew
    simp only [Bool.false_eq_true, if_false, zero_div] at hew
    exact hew.symm
  · intro h1 h2 i hilen hisome
    obtain ⟨v, hv⟩ := Option.isSome_iff_exists.mp hisome
    rw [topNEntry, rankDesc, hv]
    simp only [Option.map_some']
    apply decide_eq_true
    have hvm : some v ∈ scores := by
      rw [List.getD_eq_getElem?_getD, List.getElem?_eq_getElem hilen] at hv
      simp only [Option.getD_some] at hv
      rw [← hv]
      exact List.getElem_mem hilen
    have hEQ1 : 1 ≤ countEQ scores v := by
      apply List.countP_pos_iff.mpr
      exact ⟨some v, hvm, by simp⟩
    have hle := countGT_add_countEQ_le scores v
    have hN : countGT scores v + countEQ scores v ≤ N := le_trans hle h2
    have hNq : (countGT scores v : ℚ) + (countEQ scores v : ℚ) ≤ (N : ℚ) := by
      exact_mod_cast hN
    have hEQq : (1 : ℚ) ≤ (countEQ scores v : ℚ) := by exact_mod_cast hEQ1
    linarith
  · intro i hfalse
    rw [topNWeights, equalWeights, List.getD_eq_getElem?_getD, List.getElem?_map]
    by_cases hi : i < (topNEntries scores N).length
    · rw [List.getElem?_eq_getElem hi]
      have hlen := topNEntries_length scores N
      have hgd : (topNEntries scores N).getD i false = topNEntry scores N i :=
        topNEntries_getD scores N i (by omega)
      rw [List.getD_eq_getElem?_getD, List.getElem?_eq_getElem hi] at hgd
      simp only [Option.getD_some] at hgd
      rw [hfalse] at hgd
      simp [hgd]
    · rw [List.getElem?_eq_none (by omega)]
      rfl

/-- Witness for C3 at the spec's concrete scenario (scores 2, 1, 0 and top-1):
column 0 is selected and the weights sum to 1. -/
theorem C3_topN_weight_sums_witness :
    (topNEntries [some 2, some 1, some 0] 1).getD 0 false = true ∧
    (topNWeights [some 2, some 1, some 0] 1).sum = 1 := by
  have hsel : (topNEntries [some 2, some 1, some 0] 1).getD 0 false = true := by
    norm_num [topNEntries, topNEntry, rankDesc, countGT, countEQ,
      List.countP, List.countP.go]
  exact ⟨hsel, (C3_topN_weight_sums [some 2, some 1, some 0] 1).1 ⟨0, hsel⟩⟩

/-- C9 counterexample: in long-short mode with three defined scores 2, 1, 0
and `top_n = 2`, the middle security has descending rank 2 ≤ 2 and ascending
rank 2 ≤ 2, so it is selected long and short simultaneously on the same date,
refuting the claim for arbitrary universe sizes. -/
theorem C9_long_short_overlap_counterexample :
    topNEntry [some 2, some 1, some 0] 2 1 = true ∧
    lsShortEntry [some 2, some 1, some 0] 2 1 = true := by
  constructor
  · norm_num [topNEntry, rankDesc, countGT, countEQ, List.countP, List.countP.go]
  · norm_num [lsShortEntry, rankAsc, countLT, countEQ, List.countP, List.countP.go]

/-- C9 (amended): no security is selected long and short on the same date
whenever the date's cross-section has at least `2 * top_n` defined scores;
with fewer than `2 * top_n` defined candidates the two independently selected
sides can overlap. -/
theorem C9_long_short_no_overlap (scores : List (Option ℚ)) (N : ℕ)
    (h : 2 * N ≤ definedCount scores) (i : ℕ) :
    ¬ (topNEntry scores N i = true ∧ lsShortEntry scores N i = true) := by
  rintro ⟨hl, hs⟩
  cases hv : scores.getD i none with
  | none =>
      rw [topNEntry, rankDesc, hv] at hl
      simp at hl
  | some v =>
      rw [topNEntry, rankDesc, hv] at hl
      rw [lsShortEntry, rankAsc, hv] at hs
      simp only [Option.map_some'] at hl hs
      have hl2 := of_decide_eq_true hl
      have hs2 := of_decide_eq_true hs
      have h3 := countLT_three scores v
      have hcast : (countLT scores v : ℚ) + (countGT scores v : ℚ) + (countEQ scores v : ℚ)
          = (definedCount scores : ℚ) := by exact_mod_cast congrArg Nat.cast h3
      have hN : (2 * N : ℚ) ≤ (definedCount scores : ℚ) := by exact_mod_cast h
      linarith

/-- Witness for C9 (amended): four defined scores with `top_n = 1`; security 0
is not long-and-short at once. -/
theorem C9_long_short_no_overlap_witness :
    2 * 1 ≤ definedCount [some 3, some 2, some 1, some 0] ∧
    ¬ (topNEntry [some 3, some 2, some 1, some 0] 1 0 = true ∧
       lsShortEntry [some 3, some 2, some 1, some 0] 1 0 = true) :=
  ⟨by decide, C9_long_short_no_overlap [some 3, some 2, some 1, some 0] 1 (by decide) 0⟩

/-! ### Rebalancing: `FactorBacktester._prepare_simulation_input`
(src/backtest/engine.py)

The source selects the weight rows on the rebalance dates that exist in the
weight index (`valid_dates`) and then calls `weights.reindex(daily_index)` —
with NO forward fill: a daily date that is not a surviving rebalance date
receives NaN (here `none`), and `vbt.Portfolio.from_orders` interprets a NaN
target size as "no order".  One security's weight column is modelled; the
weight frame is the list of `(date, weight)` rows, indexed by date. -/

/-- Embedding of `_prepare_simulation_input` for one security column. -/
def prepareSimulationInput (weights : List (ℤ × ℚ)) (rebal daily : List ℤ) :
    List (ℤ × Option ℚ) :=
  let validDates := rebal.filter (fun d => (weights.map Prod.fst).contains d)
  daily.map (fun d => (d, if validDates.contains d then weights.lookup d else none))

theorem lookup_eq_some_of_nodup (w : List (ℤ × ℚ)) (hnd : (w.map Prod.fst).Nodup)
    (d : ℤ) (v : ℚ) (hm : (d, v) ∈ w) : w.lookup d = some v := by
  induction w with
  | nil => simp at hm
  | cons x rest ih =>
      obtain ⟨a, b⟩ := x
      rw [List.map_cons, List.nodup_cons] at hnd
      rcases List.mem_cons.mp hm with h1 | h2
      · rw [Prod.mk.injEq] at h1
        obtain ⟨rfl, rfl⟩ := h1
        simp [List.lookup]
      · by_cases hda : d = a
        · exfalso
          apply hnd.1
          subst hda
          exact List.mem_map.mpr ⟨(d, v), h2, rfl⟩
        · have hbe : (d == a) = false := by simp [hda]
          simp only [List.lookup, hbe]
          exact ih hnd.2 h2

theorem prepare_getD (w : List (ℤ × ℚ)) (rebal daily : List ℤ) (i : ℕ)
    (hi : i < daily.length) :
    (prepareSimulationInput w rebal daily).getD i (0, none) =
      (daily.getD i 0,
        if (rebal.filter (fun d => (w.map Prod.fst).contains d)).contains (daily.getD i 0)
        then w.lookup (daily.getD i 0) else none) := by
  rw [prepareSimulationInput]
  rw [List.getD_eq_getElem?_getD, List.getElem?_map, List.getElem?_eq_getElem hi]
  rw [List.getD_eq_getElem?_getD, List.getElem?_eq_getElem hi]
  rfl

/-- C4 counterexample: daily index 0, 1, 2 with weights 1, 2, 3 and rebalance
dates 0 and 2.  The matrix handed to the simulator holds `none` (NaN) on
date 1, not the most recent rebalance weight 1 (which the rebalance date 0
itself does hold) — `reindex` is applied without forward-filling. -/
theorem C4_forward_fill_counterexample :
    ((prepareSimulationInput [(0, 1), (1, 2), (2, 3)] [0, 2] [0, 1, 2]).getD 1 (0, none)).2
      = none ∧
    ((prepareSimulationInput [(0, 1), (1, 2), (2, 3)] [0, 2] [0, 1, 2]).getD 0 (0, none)).2
      = some 1 ∧
    ((prepareSimulationInput [(0, 1), (1, 2), (2, 3)] [0, 2] [0, 1, 2]).getD 1 (0, none)).2
      ≠ some 1 := by decide

/-- C4 (amended): the simulation-input weight matrix keeps the daily date
index; every daily date that is not a surviving rebalance date (in particular
every date strictly between two consecutive rebalance dates) holds a missing
value (`none`/NaN, which the simulator reads as "place no order", so the
position — not the recorded weight — is what carries over), and every
surviving rebalance date holds exactly its own weight row. -/
theorem C4_reindex_no_ffill (w : List (ℤ × ℚ)) (rebal daily : List ℤ) (i : ℕ)
    (hi : i < daily.length) :
    ((prepareSimulationInput w rebal daily).getD i (0, none)).1 = daily.getD i 0 ∧
    ((rebal.filter (fun d => (w.map Prod.fst).contains d)).contains (daily.getD i 0) = false →
      ((prepareSimulationInput w rebal daily).getD i (0, none)).2 = none) ∧
    ((w.map Prod.fst).Nodup →
      ∀ v : ℚ, (daily.getD i 0, v) ∈ w →
      (rebal.filter (fun d => (w.map Prod.fst).contains d)).contains (daily.getD i 0) = true →
        ((prepareSimulationInput w rebal daily).getD i (0, none)).2 = some v) := by
  have h := prepare_getD w rebal daily i hi
  refine ⟨by rw [h], ?_, ?_⟩
  · intro hc
    rw [h]
    simp only [hc, Bool.false_eq_true, if_false]
  · intro hnd v hm hc
    rw [h]
    simp only [hc, if_true]
    exact lookup_eq_some_of_nodup w hnd _ v hm

/-- Witness for C4 (amended): on the surviving rebalance date 2 the matrix
holds that date's own weight 3. -/
theorem C4_reindex_no_ffill_witness :
    2 < ([0, 1, 2] : List ℤ).length ∧
    ((prepareSimulationInput [(0, 1), (1, 2), (2, 3)] [0, 2] [0, 1, 2]).getD 2 (0, none)).2
      = some 3 :=
  ⟨by decide,
    (C4_reindex_no_ffill [(0, 1), (1, 2), (2, 3)] [0, 2] [0, 1, 2] 2 (by decide)).2.2
      (by decide) 3 (by decide) (by decide)⟩

/-! ### Factor store: `register_and_insert_factor` (src/utils/factor_db.py)

The store is the pair of the `factor_definitions` and `factor_values` tables.
`FactorDef` models the columns the claims are about (`factor_id`, unique
`name`, `params_json`, `version`); the remaining metadata columns (category,
description, expression, source, is_active, tags) are inert strings the
function writes once and never reads, and are omitted.  The source first
registers the definition when the name is missing (`SELECT factor_id ...`,
else `COALESCE(MAX(factor_id), 0) + 1` and `INSERT` — executed in DuckDB
autocommit, OUTSIDE any explicit transaction), then runs one `MERGE`
(upsert) of all rows inside `con.begin()` / `con.commit()`, with
`con.rollback()` and a raised `RuntimeError` on failure.  The embedding
makes the nondeterministic storage failure of the MERGE step an explicit
`mergeSucceeds` flag. -/

structure FactorDef where
  factor_id : ℕ
  name : String
  params_json : String
  version : ℕ
deriving DecidableEq

structure FactorValueRow where
  security_id : ℤ
  trade_date : ℤ
  factor_id : ℕ
  value : ℚ
  calc_run_id : String
deriving DecidableEq

structure Store where
  definitions : List FactorDef
  values : List FactorValueRow
deriving DecidableEq

/-- `SELECT COALESCE(MAX(factor_id), 0) + 1 FROM factor_definitions`. -/
def nextFactorId (defs : List FactorDef) : ℕ :=
  (defs.map FactorDef.factor_id).foldl max 0 + 1

/-- Registration step: return the existing factor_id for the name, else insert
a fresh definition under the next id. -/
def registerFactor (st : Store) (name params : String) (version : ℕ) : ℕ × Store :=
  match st.definitions.find? (fun d => d.name == name) with
  | some d => (d.factor_id, st)
  | none =>
      let fid := nextFactorId st.definitions
      (fid, { st with definitions := st.definitions ++ [⟨fid, name, params, version⟩] })

/-- Primary key of `factor_values`. -/
def rowKey (r : FactorValueRow) : ℤ × ℤ × ℕ := (r.security_id, r.trade_date, r.factor_id)

/-- The `MERGE INTO factor_values` statement: matched target rows are
overwritten by their source row, unmatched source rows are inserted. -/
def mergeRows (target source : List FactorValueRow) : List FactorValueRow :=
  target.map (fun t =>
    match source.find? (fun s => rowKey s == rowKey t) with
    | some s => s
    | none => t)
  ++ source.filter (fun s => ! target.any (fun t => rowKey t == rowKey s))

/-- `register_and_insert_factor`: register (auto-committed), then MERGE all
rows inside one transaction; a MERGE failure rolls the values back and
surfaces a `RuntimeError`. -/
def registerAndInsertFactor (st : Store) (name params : String) (version : ℕ)
    (rows : List (ℤ × ℤ × ℚ)) (runId : String) (mergeSucceeds : Bool) :
    Except String ℕ × Store :=
  let reg := registerFactor st name params version
  let src := rows.map (fun r => ⟨r.1, r.2.1, reg.1, r.2.2, runId⟩)
  if mergeSucceeds then
    (Except.ok reg.1, { reg.2 with values := mergeRows reg.2.values src })
  else
    (Except.error "UPSERT failed for factor_values", reg.2)

theorem registerFactor_values (st : Store) (name params : String) (version : ℕ) :
    ((registerFactor st name params version).2).values = st.values := by
  rw [registerFactor]
  cases st.definitions.find? (fun d => d.name == name) <;> rfl

theorem find?_append_singleton (l : List FactorDef) (x : FactorDef) (p : FactorDef → Bool)
    (h : ∀ d ∈ l, p d = false) (hx : p x = true) : (l ++ [x]).find? p = some x := by
  induction l with
  | nil =>
      rw [List.nil_append]
      exact List.find?_cons_of_pos _ hx
  | cons a l ih =>
      have ha : p a = false := h a (List.mem_cons_self a l)
      rw [List.cons_append, List.find?_cons_of_neg _ (by simp [ha])]
      exact ih (fun d hd => h d (List.mem_cons_of_mem a hd))

theorem mergeRows_covers (target source : List FactorValueRow) :
    ∀ s ∈ source, ∃ q ∈ mergeRows target source, rowKey q = rowKey s := by
  intro s hs
  by_cases hmatch : ∃ t ∈ target, rowKey t = rowKey s
  · obtain ⟨t, ht, hkey⟩ := hmatch
    have hfind : (source.find? (fun s2 => rowKey s2 == rowKey t)).isSome := by
      rw [List.find?_isSome]
      exact ⟨s, hs, by simp [hkey]⟩
    obtain ⟨s1, hs1⟩ := Option.isSome_iff_exists.mp hfind
    have hp : (rowKey s1 == rowKey t) = true := by simpa using List.find?_some hs1
    refine ⟨s1, ?_, ?_⟩
    · apply List.mem_append_left
      apply List.mem_map.mpr
      refine ⟨t, ht, ?_⟩
      rw [hs1]
    · rw [eq_of_beq hp, hkey]
  · refine ⟨s, ?_, rfl⟩
    apply List.mem_append_right
    apply List.mem_filter.mpr
    refine ⟨hs, ?_⟩
    cases hany : target.any (fun t => rowKey t == rowKey s) with
    | false => rfl
    | true =>
        exfalso
        obtain ⟨t, ht, hk⟩ := List.any_eq_true.mp hany
        exact hmatch ⟨t, ht, eq_of_beq hk⟩

/-- C5 counterexample: against an empty store, a call whose MERGE fails
surfaces the storage error but leaves a newly inserted row in
`factor_definitions` — the registration INSERT runs before `con.begin()` and
is not covered by the rollback, so the store is NOT restored to its full
pre-call state. -/
theorem C5_registration_survives_failed_upsert_counterexample :
    (registerAndInsertFactor ⟨[], []⟩ "f" "p" 1 [(1, 0, 2)] "run" false).1
        = Except.error "UPSERT failed for factor_values" ∧
    ((registerAndInsertFactor ⟨[], []⟩ "f" "p" 1 [(1, 0, 2)] "run" false).2).definitions
        ≠ ([] : List FactorDef) :=
  ⟨rfl, by decide⟩

/-- C5 (amended): the call is atomic at the granularity of the
`factor_values` write: on failure the error is surfaced and `factor_values`
is exactly its pre-call state (no partially-written snapshot); on success
the call reports the factor id and applies ALL rows in a single merge, every
row of the call ending up present under its key.  A first-time registration
performed by the same call, however, is committed before the value
transaction and survives a failed upsert. -/
theorem C5_upsert_values_atomicity (st : Store) (name params : String) (version : ℕ)
    (rows : List (ℤ × ℤ × ℚ)) (runId : String) :
    ((registerAndInsertFactor st name params version rows runId false).1
        = Except.error "UPSERT failed for factor_values" ∧
     ((registerAndInsertFactor st name params version rows runId false).2).values = st.values ∧
     ((registerAndInsertFactor st name params version rows runId false).2).definitions
        = ((registerFactor st name params version).2).definitions) ∧
    ((registerAndInsertFactor st name params version rows runId true).1
        = Except.ok (registerFactor st name params version).1 ∧
     ((registerAndInsertFactor st name params version rows runId true).2).values
        = mergeRows st.values (rows.map (fun r =>
            ⟨r.1, r.2.1, (registerFactor st name params version).1, r.2.2, runId⟩)) ∧
     (∀ p ∈ rows,
        ∃ q ∈ ((registerAndInsertFactor st name params version rows runId true).2).values,
          rowKey q = (p.1, p.2.1, (registerFactor st name params version).1))) := by
  have hv := registerFactor_values st name params version
  refine ⟨⟨rfl, hv, rfl⟩, ⟨rfl, ?_, ?_⟩⟩
  · show mergeRows ((registerFactor st name params version).2).values
        (rows.map (fun r => ⟨r.1, r.2.1, (registerFactor st name params version).1, r.2.2, runId⟩))
      = mergeRows st.values
        (rows.map (fun r => ⟨r.1, r.2.1, (registerFactor st name params version).1, r.2.2, runId⟩))
    rw [hv]
  · intro p hp
    have hsrc : (⟨p.1, p.2.1, (registerFactor st name params version).1, p.2.2, runId⟩ : FactorValueRow)
        ∈ rows.map (fun r =>
            (⟨r.1, r.2.1, (registerFactor st name params version).1, r.2.2, runId⟩ : FactorValueRow)) :=
      List.mem_map.mpr ⟨p, hp, rfl⟩
    obtain ⟨q, hq, hqk⟩ :=
      mergeRows_covers ((registerFactor st name params version).2).values _ _ hsrc
    exact ⟨q, hq, by rw [hqk]; rfl⟩

/-- Witness for C5 (amended): one row against an empty store; after a
successful call the row is present under its key. -/
theorem C5_upsert_values_atomicity_witness :
    (1, 0, 2) ∈ [((1 : ℤ), (0 : ℤ), (2 : ℚ))] ∧
    ∃ q ∈ ((registerAndInsertFactor ⟨[], []⟩ "f" "p" 1 [(1, 0, 2)] "run" true).2).values,
      rowKey q = (1, 0, (registerFactor ⟨[], []⟩ "f" "p" 1).1) :=
  ⟨by decide,
    (C5_upsert_values_atomicity ⟨[], []⟩ "f" "p" 1 [(1, 0, 2)] "run").2.2.2
      (1, 0, 2) (by decide)⟩

/-- C6 counterexample: after registering name "f" with parameters "a", a
repeat registration of "f" with DIFFERING parameters "b" returns normally
with the same factor_id 1 and the stored definition still carries "a" — the
source performs no parameter comparison and surfaces no error, silently
accepting the differing parameters. -/
theorem C6_differing_params_silently_accepted_counterexample :
    registerFactor ((registerFactor ⟨[], []⟩ "f" "a" 1).2) "f" "b" 1
      = (1, ⟨[⟨1, "f", "a", 1⟩], []⟩) := by decide

theorem registerFactor_of_find_some (st : Store) (n p : String) (v : ℕ) (d : FactorDef)
    (h : st.definitions.find? (fun x => x.name == n) = some d) :
    registerFactor st n p v = (d.factor_id, st) := by
  rw [registerFactor, h]

theorem registerFactor_of_find_none (st : Store) (n p : String) (v : ℕ)
    (h : st.definitions.find? (fun x => x.name == n) = none) :
    registerFactor st n p v = (nextFactorId st.definitions,
      { st with definitions :=
          st.definitions ++ [⟨nextFactorId st.definitions, n, p, v⟩] }) := by
  rw [registerFactor, h]

/-- C6 (amended): registration is idempotent per name — a repeat call under
the same name (with any, possibly differing, parameters and version) returns
the identical factor_id and leaves the store bit-for-bit unchanged (no
duplicate definition, no mutation of the stored parameters or version); and
when a definition with the name already exists, the call returns its
factor_id with the store untouched.  Differing parameters under an existing
name are silently ignored, not surfaced as an error. -/
theorem C6_register_idempotent (st : Store) (name p1 p2 : String) (v1 v2 : ℕ) :
    (registerFactor (registerFactor st name p1 v1).2 name p2 v2
        = registerFactor st name p1 v1) ∧
    (∀ d : FactorDef, st.definitions.find? (fun x => x.name == name) = some d →
      registerFactor st name p1 v1 = (d.factor_id, st)) := by
  constructor
  · cases hf : st.definitions.find? (fun x => x.name == name) with
    | some d =>
        rw [registerFactor_of_find_some st name p1 v1 d hf]
        dsimp only
        rw [registerFactor_of_find_some st name p2 v2 d hf]
    | none =>
        have hnone : ∀ x ∈ st.definitions, (x.name == name) = false := by
          intro x hx
          have hh := List.find?_eq_none.mp hf x hx
          simpa using hh
        rw [registerFactor_of_find_none st name p1 v1 hf]
        dsimp only
        have hf2 : (({ st with definitions :=
            st.definitions ++ [⟨nextFactorId st.definitions, name, p1, v1⟩] } : Store)).definitions.find?
              (fun x => x.name == name)
            = some ⟨nextFactorId st.definitions, name, p1, v1⟩ := by
          show (st.definitions ++ [(⟨nextFactorId st.definitions, name, p1, v1⟩ : FactorDef)]).find?
              (fun x => x.name == name) = _
          exact find?_append_singleton _ _ _ hnone (by simp)
        rw [registerFactor_of_find_some _ name p2 v2 _ hf2]
  · intro d hd
    rw [registerFactor, hd]

/-- Witness for C6 (amended): a store already holding definition
(7, "f", "a", 1); registering "f" again with parameters "b" returns id 7 and
the unchanged store. -/
theorem C6_register_idempotent_witness :
    registerFactor ⟨[⟨7, "f", "a", 1⟩], []⟩ "f" "b" 2 = (7, ⟨[⟨7, "f", "a", 1⟩], []⟩) :=
  (C6_register_idempotent ⟨[⟨7, "f", "a", 1⟩], []⟩ "f" "b" "x" 2 3).2
    ⟨7, "f", "a", 1⟩ (by decide)

/-! ### Cross-sectional post-processing (src/utils/factor_postprocess.py)

`postprocess_factor` works per `trade_date` group (and per
`trade_date × sector` group when sector-neutral scoring is enabled); the
definitions below model one group's cross-section as a `List (Option ℚ)`.

`_zscore` computes `mu = x.mean()`, `sigma = x.std(ddof=0)` and returns a
zero series when `sigma == 0 or np.isnan(sigma)`.  Over exact rationals,
`sigma = √(popVar)` is zero iff the population variance is zero, and `sigma`
is NaN iff the group has no defined member (pandas' mean/std skip NaN), so
the guard is embedded as that disjunction; the square root itself — needed
only in the non-degenerate branch, whose value no claim inspects — is kept
abstract as a function parameter `sqrtF` to stay inside `ℚ`. -/

/-- Defined (non-NaN) members of a cross-section. -/
def definedVals (x : List (Option ℚ)) : List ℚ := x.filterMap id

/-- Pandas `Series.mean` over the defined members (0 for an empty list, whose
NaN-ness the callers test separately). -/
def meanQ (l : List ℚ) : ℚ := l.sum / l.length

/-- Population variance (`std(ddof=0)` squared). -/
def popVar (l : List ℚ) : ℚ := (l.map (fun v => (v - meanQ l) ^ 2)).sum / l.length

/-- `_zscore` at one member `v0` of the group `x`. -/
def zscoreVal (sqrtF : ℚ → ℚ) (x : List (Option ℚ)) (v0 : Option ℚ) : Option ℚ :=
  let d := definedVals x
  if d.length = 0 ∨ popVar d = 0 then some 0
  else v0.map (fun v => (v - meanQ d) / sqrtF (popVar d))

/-- `_zscore` on a whole group (`groupby(...).transform(_zscore)`). -/
def zscoreWith (sqrtF : ℚ → ℚ) (x : List (Option ℚ)) : List (Option ℚ) :=
  x.map (zscoreVal sqrtF x)

theorem popVar_singleton (v : ℚ) : popVar [v] = 0 := by
  simp [popVar, meanQ]

/-- C7: on any date (or date×sector) group whose cross-section has fewer than
2 defined members — or zero standard deviation generally — `_zscore` emits
exactly zero for every member of the group, NaN members included, never NaN;
the function is total, so nothing is raised. -/
theorem C7_zscore_degenerate_emits_zeros (sqrtF : ℚ → ℚ) (x : List (Option ℚ))
    (h : (definedVals x).length < 2 ∨ popVar (definedVals x) = 0) :
    zscoreWith sqrtF x = List.replicate x.length (some 0) := by
  have hguard : (definedVals x).length = 0 ∨ popVar (definedVals x) = 0 := by
    rcases h with h1 | h2
    · cases hd : definedVals x with
      | nil => exact Or.inl rfl
      | cons a l =>
          cases l with
          | nil => exact Or.inr (popVar_singleton a)
          | cons b l2 => rw [hd] at h1; simp at h1; omega
    · exact Or.inr h2
  have hz : ∀ v0, zscoreVal sqrtF x v0 = some 0 := by
    intro v0
    show (if (definedVals x).length = 0 ∨ popVar (definedVals x) = 0
          then some 0
          else v0.map (fun v => (v - meanQ (definedVals x)) / sqrtF (popVar (definedVals x))))
        = some 0
    rw [if_pos hguard]
  rw [zscoreWith, List.map_congr_left (fun a _ => hz a), List.map_const']

/-- Witness for C7: a group with one defined member (5) and one NaN member —
both come out as exactly zero. -/
theorem C7_zscore_degenerate_emits_zeros_witness :
    (definedVals [some 5, none]).length < 2 ∧
    zscoreWith id [some 5, none] = List.replicate 2 (some 0) :=
  ⟨by decide, C7_zscore_degenerate_emits_zeros id [some 5, none] (Or.inl (by decide))⟩

/-- Pandas `Series.quantile(q)` (default linear interpolation) over an
already-sorted list of the defined values. -/
def quantileLinear (s : List ℚ) (q : ℚ) : ℚ :=
  let pos := q * ((s.length : ℚ) - 1)
  let i := (⌊pos⌋).toNat
  let frac := pos - ((⌊pos⌋ : ℤ) : ℚ)
  s.getD i 0 + (s.getD (i + 1) (s.getD i 0) - s.getD i 0) * frac

/-- `_winsorize_series` with the default `limits=(0.01, 0.01)`: clip the
cross-section at its 1st and 99th percentile (NaN members pass through; an
all-NaN series is returned unchanged, as clipping by NaN bounds is the
identity). -/
def winsorizeSeries (x : List (Option ℚ)) : List (Option ℚ) :=
  let s := List.insertionSort (fun a b => a ≤ b) (definedVals x)
  if s.isEmpty then x
  else
    let lo := quantileLinear s (1 / 100)
    let hi := quantileLinear s (1 - 1 / 100)
    x.map (Option.map (fun v => min (max v lo) hi))

/-- Value-column stage of `postprocess_factor` for one date group: the
`enable_winsorize` parameter (default `true`) is accepted by the source but
never consulted — the winsorize transform is applied unconditionally. -/
def postValueStage (x : List (Option ℚ)) (enableWinsorize : Bool := true) : List (Option ℚ) :=
  winsorizeSeries x

/-- C8 (code bug): with `enable_winsorize=False` the cross-section 0, 1, 100
is still clipped (to 1/50, 1, 4901/50) instead of passing through unclipped,
because the flag is never read — disabling the option behaves identically to
enabling it. -/
theorem C8_winsorize_flag_ignored :
    postValueStage [some 0, some 1, some 100] false ≠ [some 0, some 1, some 100] ∧
    postValueStage [some 0, some 1, some 100] false
      = postValueStage [some 0, some 1, some 100] true := by
  constructor
  · norm_num [postValueStage, winsorizeSeries, definedVals, quantileLinear]
  · rfl

/-! ### Value factors: `compute_value_factors` (src/factors/value/value.py)

A `PFRow` is one row of `load_prices_with_fundamentals` output: a
(security, date) pair with the price and the (possibly missing) wide
fundamental columns.  Immediately after loading, the source drops every row
with `security_id == 504` (`df_all = df_all[df_all["security_id"] != 504]`),
before any sub-factor is computed; both the composite and the single mode
then build their output frames from that filtered `df_all` only, and the
subsequent `postprocess_factor` / `register_and_insert_factor` steps add
columns and persist rows without ever adding a row, so no returned or
persisted row can carry security_id 504.  Raw sub-factor ratios follow
`np.where(denominator > 0 ∧ finite, numerator / denominator, NaN)`. -/

structure PFRow where
  security_id : ℤ
  trade_date : ℤ
  adj_close : ℚ
  eps : Option ℚ
  total_stockholders_equity : Option ℚ
  market_capitalization : Option ℚ
  free_cash_flow : Option ℚ
  revenue : Option ℚ
  operating_income : Option ℚ
  enterprise_value : Option ℚ

/-- Raw sub-factor columns of step 3 of `compute_value_factors`. -/
def subFactorValue (sf : String) (r : PFRow) : Option ℚ :=
  if sf = "earnings_yield" then
    (if 0 < r.adj_close then r.eps.map (fun e => e / r.adj_close) else none)
  else if sf = "book_to_market" then
    (match r.market_capitalization with
     | some m => if 0 < m then r.total_stockholders_equity.map (fun v => v / m) else none
     | none => none)
  else if sf = "free_cash_flow_yield" then
    (match r.market_capitalization with
     | some m => if 0 < m then r.free_cash_flow.map (fun v => v / m) else none
     | none => none)
  else if sf = "sales_to_price" then
    (match r.market_capitalization with
     | some m => if 0 < m then r.revenue.map (fun v => v / m) else none
     | none => none)
  else if sf = "operating_income_yield" then
    (match r.enterprise_value with
     | some e => if 0 < e then r.operating_income.map (fun v => v / e) else none
     | none => none)
  else none

/-- One `trade_date` group of `df_all`. -/
def dateGroup (rows : List PFRow) (d : ℤ) : List PFRow :=
  rows.filter (fun r => r.trade_date == d)

/-- `groupby("trade_date")[sf].transform(_zscore)` evaluated at row `r`. -/
def zscoreOfSub (sqrtF : ℚ → ℚ) (rows : List PFRow) (sf : String) (r : PFRow) : Option ℚ :=
  zscoreVal sqrtF ((dateGroup rows r.trade_date).map (subFactorValue sf)) (subFactorValue sf r)

/-- `value_composite_dynamic`: row-wise mean of the selected z-columns with
`skipna=True` (NaN iff every selected z-score is NaN). -/
def compositeValue (sqrtF : ℚ → ℚ) (rows : List PFRow) (selected : List String)
    (r : PFRow) : Option ℚ :=
  let ds := (selected.map (fun sf => zscoreOfSub sqrtF rows sf r)).filterMap id
  if ds.length = 0 then none else some (ds.sum / ds.length)

/-- Composite-mode factor rows (security_id, trade_date, value): the rows of
`df_factor` before post-processing, which is row-preserving. -/
def valueCompositeRows (sqrtF : ℚ → ℚ) (rows0 : List PFRow) (selected : List String) :
    List (ℤ × ℤ × ℚ) :=
  let dfAll := rows0.filter (fun r => r.security_id != 504)
  dfAll.filterMap (fun r => (compositeValue sqrtF dfAll selected r).map
    (fun v => (r.security_id, r.trade_date, v)))

/-- Single-mode factor rows, concatenated over the requested sub-factors. -/
def valueSingleRows (rows0 : List PFRow) (factors : List String) : List (ℤ × ℤ × ℚ) :=
  let dfAll := rows0.filter (fun r => r.security_id != 504)
  factors.flatMap (fun sf => dfAll.filterMap (fun r =>
    (subFactorValue sf r).map (fun v => (r.security_id, r.trade_date, v))))

/-- C10: in both composite and single mode, rows with security_id 504 are
dropped before any sub-factor computation, so no value-factor output row ever
carries security_id 504 — for every input frame, sub-factor selection, and
cross-sectional normalisation. -/
theorem C10_security_504_excluded (sqrtF : ℚ → ℚ) (rows0 : List PFRow)
    (selected factors : List String) :
    (∀ p ∈ valueCompositeRows sqrtF rows0 selected, p.1 ≠ 504) ∧
    (∀ p ∈ valueSingleRows rows0 factors, p.1 ≠ 504) := by
  constructor
  · intro p hp
    rw [valueCompositeRows] at hp
    obtain ⟨r, hr, hrp⟩ := List.mem_filterMap.mp hp
    obtain ⟨v, hv, hvp⟩ := Option.map_eq_some'.mp hrp
    have hid : (r.security_id != 504) = true := (List.mem_filter.mp hr).2
    rw [← hvp]
    simpa using hid
  · intro p hp
    rw [valueSingleRows] at hp
    obtain ⟨sf, hsf, hmem⟩ := List.mem_flatMap.mp hp
    obtain ⟨r, hr, hrp⟩ := List.mem_filterMap.mp hmem
    obtain ⟨v, hv, hvp⟩ := Option.map_eq_some'.mp hrp
    have hid : (r.security_id != 504) = true := (List.mem_filter.mp hr).2
    rw [← hvp]
    simpa using hid

/-- Witness for C10: two identical rows (eps 3, price 1) for securities 1 and
504; the single-mode earnings-yield output contains the row of security 1 and
that row's id is not 504 (the 504 row is dropped). -/
theorem C10_security_504_excluded_witness :
    ((1 : ℤ), (0 : ℤ), (3 : ℚ) / 1) ∈ valueSingleRows
      [⟨1, 0, 1, some 3, none, none, none, none, none, none⟩,
       ⟨504, 0, 1, some 3, none, none, none, none, none, none⟩] ["earnings_yield"] ∧
    ((1 : ℤ), (0 : ℤ), (3 : ℚ) / 1).1 ≠ 504 := by
  have hm : ((1 : ℤ), (0 : ℤ), (3 : ℚ) / 1) ∈ valueSingleRows
      [⟨1, 0, 1, some 3, none, none, none, none, none, none⟩,
       ⟨504, 0, 1, some 3, none, none, none, none, none, none⟩] ["earnings_yield"] := by
    show ((1 : ℤ), (0 : ℤ), (3 : ℚ) / 1) ∈ [((1 : ℤ), (0 : ℤ), (3 : ℚ) / 1)]
    exact List.mem_singleton_self _
  exact ⟨hm, (C10_security_504_excluded id
    [⟨1, 0, 1, some 3, none, none, none, none, none, none⟩,
     ⟨504, 0, 1, some 3, none, none, none, none, none, none⟩]
    [] ["earnings_yield"]).2 _ hm⟩

end Spec2Proof
